import Mathlib

/-
Verification of the PowerMateEventHandler event pipeline
(src/PowerMateEventHandler.py).

The embedding models:
  * the raw evdev input records (`InputEvent`) with their device-clock
    timestamps (seconds + microseconds, nonnegative integers);
  * `event_time_in_ms`, which in the Python source evaluates
    `int((event.usec / 1000000.0 + event.sec) * 1000)` in IEEE-754 binary64
    ("double") arithmetic.  Double arithmetic is embedded exactly: `roundQ`
    rounds a rational to the nearest 53-bit-significand dyadic rational
    (round to nearest, ties to even), which is binary64 rounding for all
    magnitudes far from overflow and underflow - every number the claims
    touch is between 2^-30 and 2^70, so the unbounded-exponent model agrees
    with binary64 there.  `pyTrunc` is Python's `int()` on a float:
    truncation toward zero;
  * the turn debouncer `__knob_turned` and the click classifier
    `__button_press`.  Wall-clock time is modelled as an exact rational
    number of milliseconds (the source reads it as `int(round(time.time() *
    1000))`; the rounding of the clock readout is measurement granularity,
    not algorithm, and is not modelled).  The raw queue is modelled as a
    list of (arrival wall-clock time in ms, record) pairs together with the
    current wall-clock instant: `Queue.get(timeout=x)` returns the head
    record if it arrives by the deadline `now + 1000*x` (advancing the
    clock to the arrival instant), and otherwise times out with the clock
    at the deadline; a `Queue.get()` with no timeout blocks until the head
    record arrives, and blocking forever on a queue that never delivers
    what the loop waits for is modelled as the absence of a result
    (`Option.none` for the whole run of `__button_press`);
  * the LED state (`set_led_brightness`, `flash_led`) as the stored
    brightness plus the list of values written to the device;
  * the timing parameters and the `get_next` entry point.
-/

/- Batteries marks the `Rat` field operations irreducible, which blocks
`decide` on concrete rational computations; restore the default
reducibility for this file. -/
attribute [local semireducible] Rat.mul Rat.inv Rat.add Rat.sub Rat.ofScientific

/-! ### Binary64 rounding, modelled exactly on rationals -/

/-- One step of a bounded exponent search: after `k` steps the accumulator is
`min k (Nat.log2 n)`.  Structural recursion on a small literal fuel keeps the
definition kernel-reducible on large numerals. -/
def climb (n : ℕ) : ℕ → ℕ
  | 0 => 0
  | k + 1 =>
    let a := climb n k
    if 2 ^ (a + 1) ≤ n then a + 1 else a

/-- Floor of the base-2 logarithm, exact for every `n < 2^256` (the largest
numerator or denominator reached anywhere in this development is below
2^130). -/
def ilog2 (n : ℕ) : ℕ := climb n 256

/-- `2^e` in `ℚ` for an integer exponent, by explicit case split (kept
kernel-reducible; equal to `zpow`, see `pow2_eq_zpow`). -/
def pow2 : ℤ → ℚ
  | Int.ofNat n => (2 : ℚ) ^ n
  | Int.negSucc n => 1 / (2 : ℚ) ^ (n + 1)

/-- Round a rational to the nearest integer, ties to even - the rounding of
the significand used by binary64 arithmetic. -/
def rhe (m : ℚ) : ℤ :=
  if Int.fract m < 1 / 2 then ⌊m⌋
  else if 1 / 2 < Int.fract m then ⌊m⌋ + 1
  else if ⌊m⌋ % 2 = 0 then ⌊m⌋ else ⌊m⌋ + 1

/-- The exponent binary64 normalisation uses: the `e` with `2^e ≤ q < 2^(e+1)`
for `q > 0` (choose between the two candidates the numerator/denominator
logarithms leave open). -/
def qexp (q : ℚ) : ℤ :=
  let e0 : ℤ := (ilog2 q.num.toNat : ℤ) - (ilog2 q.den : ℤ)
  if pow2 e0 ≤ q then e0 else e0 - 1

/-- Binary64 rounding of a nonnegative rational: scale into `[2^52, 2^53)`,
round the significand to the nearest integer (ties to even), scale back.
All floating-point values of the source are nonnegative, so the negative
case never arises and is mapped to `0`. -/
def roundQ (q : ℚ) : ℚ :=
  if q ≤ 0 then 0
  else
    let e := qexp q
    pow2 (e - 52) * (rhe (q * pow2 (52 - e)) : ℚ)

/-- Python's `int()` applied to a float value: truncation toward zero. -/
def pyTrunc (q : ℚ) : ℤ := if 0 ≤ q then ⌊q⌋ else ⌈q⌉

/-! ### Raw records and their millisecond timestamp -/

/-- Event code of a PowerMate button edge (`BUTTON_PUSHED = 256`). -/
def BUTTON_PUSHED : ℤ := 256

/-- Event code of a PowerMate knob rotation (`KNOB_TURNED = 7`). -/
def KNOB_TURNED : ℤ := 7

/-- A raw evdev record: event code, signed value (press/clockwise positive),
and the device-clock timestamp in seconds plus microseconds. -/
structure InputEvent where
  code : ℤ
  value : ℤ
  sec : ℕ
  usec : ℕ
deriving DecidableEq

/-- `event_time_in_ms`: the source computes
`int((event.usec / 1000000.0 + event.sec) * 1000)` - the integer fields are
converted to double, the division, addition and multiplication each round
once, and `int()` truncates. -/
def event_time_in_ms (e : InputEvent) : ℤ :=
  pyTrunc (roundQ (roundQ (roundQ (e.sec : ℚ) + roundQ (roundQ (e.usec : ℚ) / 1000000)) * 1000))

/-- The timestamp the spec describes: `floor((usec/1_000_000 + sec) * 1000)`
evaluated in exact arithmetic. -/
def event_time_in_ms_spec (e : InputEvent) : ℤ :=
  ⌊((e.usec : ℚ) / 1000000 + (e.sec : ℚ)) * 1000⌋

/-! ### Consolidated events and the turn debouncer -/

/-- The five consolidated event codes (`ConsolidatedEventCode`). -/
inductive ConsolidatedEventCode
  | SINGLE_CLICK
  | DOUBLE_CLICK
  | LONG_CLICK
  | RIGHT_TURN
  | LEFT_TURN
deriving DecidableEq

/-- The classifier-visible mutable state: `self.__time_of_last_turn` (set from
`__get_time_in_ms()`, wall clock in ms) and the consolidated queue, as the
list of events pushed so far. -/
structure BPState where
  time_of_last_turn : ℚ
  consolidated_queue : List ConsolidatedEventCode
deriving DecidableEq

/-- `__knob_turned(event)`: if `event_time_in_ms(event) - turn_delay >
time_of_last_turn`, push `RIGHT_TURN` (value > 0) or `LEFT_TURN` and set
`time_of_last_turn` to the current wall clock `now`; otherwise do nothing.
`now` stands for the `self.__get_time_in_ms()` read at emission. -/
def knob_turned (turn_delay : ℚ) (now : ℚ) (st : BPState) (event : InputEvent) : BPState :=
  if (event_time_in_ms event : ℚ) - turn_delay > st.time_of_last_turn then
    { time_of_last_turn := now
      consolidated_queue := st.consolidated_queue ++
        [if event.value > 0 then ConsolidatedEventCode.RIGHT_TURN
         else ConsolidatedEventCode.LEFT_TURN] }
  else st

/-! ### The raw queue with arrival times, and the click classifier -/

/-- The raw queue as the classifier sees it: the current wall clock (ms) and
the records still to be delivered, each with its arrival instant (ms). -/
structure QState where
  now : ℚ
  pending : List (ℚ × InputEvent)
deriving DecidableEq

/-- `raw_queue.get(timeout=x)` with `x` in seconds: the head record is
delivered if it arrives by the deadline `now + 1000 * x` (the clock advances
to the arrival instant, or does not move if the record is already queued);
otherwise `Queue.Empty` is raised with the clock at the deadline. -/
def qget (timeout : ℚ) (s : QState) : Option InputEvent × QState :=
  match s.pending with
  | [] => (none, ⟨s.now + 1000 * timeout, []⟩)
  | (t, e) :: rest =>
    if t ≤ s.now + 1000 * timeout then (some e, ⟨max s.now t, rest⟩)
    else (none, ⟨s.now + 1000 * timeout, (t, e) :: rest⟩)

/-- The guard of the long-press race loop:
`(event == None) or (event.code != BUTTON_PUSHED)`. -/
def still_racing : Option InputEvent → Bool
  | none => true
  | some e => e.code != BUTTON_PUSHED

/-- The `while ((event == None) or (event.code != BUTTON_PUSHED)) and (x > 0)`
loop of `__button_press`: pop with timeout `x` (seconds), shrink `x` by the
elapsed wall time.  `fuel` only bounds the number of iterations so the
recursion is structural; every call below passes `pending.length + 2`, which
is more than the loop can use: an iteration either consumes a queued record
or times out, and a timeout sets `x` to exactly `0`, which stops the loop. -/
def race_loop : ℕ → Option InputEvent → ℚ → QState → Option InputEvent × ℚ × QState
  | 0, event, x, s => (event, x, s)
  | fuel + 1, event, x, s =>
    if still_racing event ∧ 0 < x then
      let check_time := s.now
      let r := qget x s
      race_loop fuel r.1 (x - (r.2.now - check_time) / 1000) r.2
    else (event, x, s)

/-- The drain after a long click: `event = get()` then
`while event.code != BUTTON_PUSHED: event = get()` - blocking pops with no
timeout.  Returns the clock and the queue left after the button edge, or
`none` when no button edge is ever delivered (the Python loop would block
forever). -/
def drain_until_button : List (ℚ × InputEvent) → ℚ → Option (ℚ × List (ℚ × InputEvent))
  | [], _ => none
  | (t, e) :: rest, now =>
    if e.code = BUTTON_PUSHED then some (max now t, rest)
    else drain_until_button rest (max now t)

/-- `__button_press(time_pressed)`, the click classifier.  `long_press_time`
and `double_click_time` are in seconds, `turn_delay` in ms, `time_pressed`
and the clock in ms.  Returns the updated classifier state and queue, or
`none` when the run blocks forever on a get with no timeout (in that case
Python never returns; in the long-click branch the `LONG_CLICK` has already
been pushed when the blocked drain begins, but no terminating state exists
to report).  The structure follows the source exactly: the pre-loop pop and
countdown update, the race loop, then either the long-click branch (push
`LONG_CLICK`, drain to the button edge) or the short-press branch (drop one
record, pop with timeout `double_click_time`, then single click / double
click / forward the knob record to `__knob_turned`). -/
def button_press (long_press_time double_click_time turn_delay : ℚ)
    (time_pressed : ℚ) (st : BPState) (s : QState) : Option (BPState × QState) :=
  let r := qget long_press_time s
  let x1 := long_press_time - (r.2.now - time_pressed) / 1000
  let res := race_loop (r.2.pending.length + 2) r.1 x1 r.2
  let x2 := res.2.1
  let s2 := res.2.2
  if x2 ≤ 0 then
    match drain_until_button s2.pending s2.now with
    | none => none
    | some (now2, rest2) =>
      some ({ st with consolidated_queue :=
                st.consolidated_queue ++ [ConsolidatedEventCode.LONG_CLICK] },
            ⟨now2, rest2⟩)
  else
    match s2.pending with
    | [] => none
    | (t0, _) :: rest0 =>
      let r2 := qget double_click_time ⟨max s2.now t0, rest0⟩
      match r2.1 with
      | none =>
        some ({ st with consolidated_queue :=
                  st.consolidated_queue ++ [ConsolidatedEventCode.SINGLE_CLICK] }, r2.2)
      | some event2 =>
        if event2.code = BUTTON_PUSHED then
          some ({ st with consolidated_queue :=
                    st.consolidated_queue ++ [ConsolidatedEventCode.DOUBLE_CLICK] }, r2.2)
        else
          some (knob_turned turn_delay r2.2.now st event2, r2.2)

/-! ### Timing parameters and the long-press setter -/

/-- The handler's timing attributes.  `__long_press_time` is set by the
constructor and read by `__button_press`; `__long_click_time` is a distinct
attribute that exists only once `set_long_click_time` has run (hence an
`Option`, `none` at construction). -/
structure TimingState where
  turn_delay : ℚ
  long_press_time : ℚ
  double_click_time : ℚ
  long_click_time : Option ℚ
deriving DecidableEq

/-- `set_long_click_time(time)`: writes `self.__long_click_time`. -/
def set_long_click_time (h : TimingState) (time : ℚ) : TimingState :=
  { h with long_click_time := some time }

/-- `__button_press` as invoked on a handler: it reads
`self.__long_press_time`, `self.__double_click_time` and
`self.__turn_delay`. -/
def handler_button_press (h : TimingState) (time_pressed : ℚ) (st : BPState)
    (s : QState) : Option (BPState × QState) :=
  button_press h.long_press_time h.double_click_time h.turn_delay time_pressed st s

/-! ### The LED channel -/

/-- Module-level `led_brightness = 100`, the value bound once at function
definition time as the default of `flash_led`'s `brightness` parameter. -/
def led_brightness : ℤ := 100

/-- The LED-facing state: the stored `self.__led_brightness` and the list of
values written to the device (`uinput.write`), in order. -/
structure LedState where
  stored : ℤ
  writes : List ℤ
deriving DecidableEq

/-- `set_led_brightness(brightness)`: clamp below 0 to 0 and above 255 to
255, write the clamped value to the device, store it. -/
def set_led_brightness (st : LedState) (brightness : ℤ) : LedState :=
  let b := if brightness < 0 then 0 else if brightness > 255 then 255 else brightness
  { stored := b, writes := st.writes ++ [b] }

/-- The `for i in range(num_flashes)` loop of `flash_led`: each iteration is
`set_led_brightness(brightness)` then `set_led_brightness(0)` (the sleeps do
not touch the modelled state). -/
def flash_loop : ℕ → LedState → ℤ → LedState
  | 0, st, _ => st
  | n + 1, st, b => flash_loop n (set_led_brightness (set_led_brightness st b) 0) b

/-- `flash_led(num_flashes, brightness, ...)`: record the stored brightness,
run the flash loop, then assign the recorded value back to
`self.__led_brightness` (an assignment only - no device write). -/
def flash_led (st : LedState) (num_flashes : ℕ) (brightness : ℤ) : LedState :=
  let reset := st.stored
  { flash_loop num_flashes st brightness with stored := reset }

/-- `flash_led()` with every parameter left at its default: `num_flashes=2`
and `brightness=led_brightness`, the module-level value captured when the
`def` statement ran. -/
def flash_led_defaults (st : LedState) : LedState :=
  flash_led st 2 led_brightness

/-- The clamp of `set_led_brightness`, as the spec states it ("out-of-range
requests are clamped"): a specification-side restatement used to compare
the write sequence against. -/
def ledClamp (b : ℤ) : ℤ := if b < 0 then 0 else if b > 255 then 255 else b

/-! ### `get_next` -/

/-- The pipeline state `get_next` reads: the `__event_capture_running` flag,
whether `__consolidated_thread` is set (it is `None` when `start` ran with
`raw_only=True`), and the two queues. -/
structure PipelineState where
  event_capture_running : Bool
  consolidated_thread : Bool
  raw_queue : List InputEvent
  consolidated_queue : List ConsolidatedEventCode
deriving DecidableEq

/-- `Queue.get(block, timeout)` for a consumer-facing queue whose future
arrivals are not modelled: a queued value is returned at once; an empty
queue raises `Queue.Empty` after the wait unless the wait is unbounded
(`block` with no timeout), in which case the call never returns (`none`). -/
def queue_get {α : Type} (q : List α) (block : Bool) (timeout : Option ℚ) :
    Option (Option α × List α) :=
  match q with
  | x :: rest => some (some x, rest)
  | [] => if block = true ∧ timeout = none then none else some (none, [])

/-- `get_next(block, timeout)`: raise `CaptureNotStarted` when capture is not
running; otherwise pop the consolidated queue (or the raw queue when no
consolidated thread exists) with the given policy, turning `Queue.Empty`
into a `None` result.  The outer `Option` is `none` when the call blocks
forever; the returned `PipelineState` is the state after the call. -/
def get_next (p : PipelineState) (block : Bool) (timeout : Option ℚ) :
    Option (Except String (Option (Sum ConsolidatedEventCode InputEvent)) × PipelineState) :=
  if p.event_capture_running = false then
    some (Except.error "CaptureNotStarted", p)
  else if p.consolidated_thread then
    match queue_get p.consolidated_queue block timeout with
    | none => none
    | some (ev, q2) =>
      some (Except.ok (ev.map Sum.inl), { p with consolidated_queue := q2 })
  else
    match queue_get p.raw_queue block timeout with
    | none => none
    | some (ev, q2) =>
      some (Except.ok (ev.map Sum.inr), { p with raw_queue := q2 })

/-! ### Theorems -/

set_option maxRecDepth 100000
set_option maxHeartbeats 1000000

/-- C1: on a knob-turn record with computed device-clock timestamp `T` and
signed magnitude `S`, `__knob_turned` emits exactly when
`T - turn_delay > time_of_last_turn`: a `RIGHT_TURN` for `S > 0`, a
`LEFT_TURN` for `S ≤ 0`, setting `time_of_last_turn` to the wall clock `now`
of the emission (not to `T`); otherwise the record is discarded and the
state is unchanged. -/
theorem C1_turn_debounce (turn_delay now : ℚ) (st : BPState) (e : InputEvent) :
    ((event_time_in_ms e : ℚ) - turn_delay > st.time_of_last_turn → e.value > 0 →
      knob_turned turn_delay now st e =
        ⟨now, st.consolidated_queue ++ [ConsolidatedEventCode.RIGHT_TURN]⟩) ∧
    ((event_time_in_ms e : ℚ) - turn_delay > st.time_of_last_turn → e.value ≤ 0 →
      knob_turned turn_delay now st e =
        ⟨now, st.consolidated_queue ++ [ConsolidatedEventCode.LEFT_TURN]⟩) ∧
    (¬ (event_time_in_ms e : ℚ) - turn_delay > st.time_of_last_turn →
      knob_turned turn_delay now st e = st) := by
  refine ⟨fun h hv => ?_, fun h hv => ?_, fun h => ?_⟩
  · simp [knob_turned, h, hv]
  · simp [knob_turned, h, not_lt.mpr hv]
  · simp [knob_turned, h]

/-- C1, applied: a knob-turn record with timestamp 0 against
`time_of_last_turn = -1` and `turn_delay = 0` emits a right turn and stores
the wall-clock instant 9999, not the record's own timestamp. -/
theorem C1_turn_debounce_witness :
    knob_turned 0 9999 ⟨-1, []⟩ ⟨7, 1, 0, 0⟩ = ⟨9999, [ConsolidatedEventCode.RIGHT_TURN]⟩ :=
  (C1_turn_debounce 0 9999 ⟨-1, []⟩ ⟨7, 1, 0, 0⟩).1 (by decide) (by decide)

/-- C2, refuted at a concrete input: a button press at t=0 (long-press window
1 s, turn-delay window 1000 ms), release at t=100 ms, quirk record at
t=110 ms, then a knob-turn record at t=200 ms whose computed timestamp 0
fails the debounce test (`0 - 1000 > 0` is false): `__button_press` returns
with the consolidated queue exactly as it found it - zero events for this
dequeued button-down. -/
theorem C2_counterexample :
    button_press 1 1 1000 0 ⟨0, []⟩
        ⟨0, [(100, ⟨256, -1, 0, 0⟩), (110, ⟨0, 0, 0, 0⟩), (200, ⟨7, 1, 0, 0⟩)]⟩
      = some (⟨0, []⟩, ⟨200, []⟩) ∧
    (⟨0, ([] : List ConsolidatedEventCode)⟩ : BPState).consolidated_queue.length = 0 :=
  ⟨by decide, rfl⟩

/-- C2 as amended: a terminating `__button_press` run pushes at most one
consolidated event, and it pushes exactly one except when the record that
resolves the double-click window is a knob-delta the turn debouncer
suppresses.  Whenever the run pushes none, the conclusion reconstructs the
run: the classifier state is exactly as before, the race loop (replayed on
the same inputs) ended with time remaining - a short press - the queue then
held a further record (the dropped quirk record), the
`get(timeout=double_click_time)` that followed delivered a record `event2`
whose code is not `BUTTON_PUSHED`, that record fails the debounce test
against `time_of_last_turn`, and `__knob_turned` returned it unsent.  So
every other terminating run pushes exactly one event. -/
theorem C2_amended (long_press_time double_click_time turn_delay time_pressed : ℚ)
    (st : BPState) (s : QState) (st2 : BPState) (s2 : QState)
    (h : button_press long_press_time double_click_time turn_delay time_pressed st s
          = some (st2, s2)) :
    ∃ evs, st2.consolidated_queue = st.consolidated_queue ++ evs ∧ evs.length ≤ 1 ∧
      (evs = [] → st2 = st ∧
        ∃ (event2 : InputEvent) (ev1 : Option InputEvent) (x2 : ℚ) (sR : QState)
          (t0 : ℚ) (e0 : InputEvent) (rest0 : List (ℚ × InputEvent)),
          race_loop ((qget long_press_time s).2.pending.length + 2)
              (qget long_press_time s).1
              (long_press_time - ((qget long_press_time s).2.now - time_pressed) / 1000)
              (qget long_press_time s).2 = (ev1, x2, sR) ∧
          0 < x2 ∧
          sR.pending = (t0, e0) :: rest0 ∧
          qget double_click_time ⟨max sR.now t0, rest0⟩ = (some event2, s2) ∧
          event2.code ≠ BUTTON_PUSHED ∧
          ¬ ((event_time_in_ms event2 : ℚ) - turn_delay > st.time_of_last_turn) ∧
          knob_turned turn_delay s2.now st event2 = st) := by
  simp only [button_press] at h
  split at h
  · split at h
    · exact absurd h (by simp)
    · simp only [Option.some.injEq, Prod.mk.injEq] at h
      obtain ⟨h1, -⟩ := h
      subst h1
      exact ⟨[ConsolidatedEventCode.LONG_CLICK], rfl, by simp, by simp⟩
  · rename_i hx
    split at h
    · exact absurd h (by simp)
    · rename_i t0 e0 rest0 heq
      split at h
      · simp only [Option.some.injEq, Prod.mk.injEq] at h
        obtain ⟨h1, -⟩ := h
        subst h1
        exact ⟨[ConsolidatedEventCode.SINGLE_CLICK], rfl, by simp, by simp⟩
      · rename_i event2 heq2
        split at h
        · simp only [Option.some.injEq, Prod.mk.injEq] at h
          obtain ⟨h1, -⟩ := h
          subst h1
          exact ⟨[ConsolidatedEventCode.DOUBLE_CLICK], rfl, by simp, by simp⟩
        · rename_i hcode
          simp only [Option.some.injEq, Prod.mk.injEq] at h
          obtain ⟨h1, h2⟩ := h
          subst h2
          unfold knob_turned at h1
          split at h1
          · subst h1
            exact ⟨_, rfl, by split <;> simp, by simp⟩
          · rename_i hg
            subst h1
            exact ⟨[], by simp, by simp, fun _ => ⟨rfl, event2,
              (race_loop ((qget long_press_time s).2.pending.length + 2)
                  (qget long_press_time s).1
                  (long_press_time - ((qget long_press_time s).2.now - time_pressed) / 1000)
                  (qget long_press_time s).2).1,
              (race_loop ((qget long_press_time s).2.pending.length + 2)
                  (qget long_press_time s).1
                  (long_press_time - ((qget long_press_time s).2.now - time_pressed) / 1000)
                  (qget long_press_time s).2).2.1,
              (race_loop ((qget long_press_time s).2.pending.length + 2)
                  (qget long_press_time s).1
                  (long_press_time - ((qget long_press_time s).2.now - time_pressed) / 1000)
                  (qget long_press_time s).2).2.2,
              t0, e0, rest0, rfl, not_le.mp hx, heq,
              by rw [← heq2], hcode, hg,
              by unfold knob_turned; exact if_neg hg⟩⟩

/-- C2 as amended, applied at the zero-event run of `C2_counterexample`'s
scenario: the amended theorem pins the silent outcome to a suppressed
knob-delta resolving the double-click window. -/
theorem C2_amended_witness :
    ∃ evs, (⟨0, []⟩ : BPState).consolidated_queue
        = (⟨0, []⟩ : BPState).consolidated_queue ++ evs ∧ evs.length ≤ 1 ∧
      (evs = [] → (⟨0, []⟩ : BPState) = ⟨0, []⟩ ∧
        ∃ (event2 : InputEvent) (ev1 : Option InputEvent) (x2 : ℚ) (sR : QState)
          (t0 : ℚ) (e0 : InputEvent) (rest0 : List (ℚ × InputEvent)),
          race_loop ((qget 1 ⟨0, [(100, ⟨256, -1, 0, 0⟩), (110, ⟨0, 0, 0, 0⟩),
                  (200, ⟨7, 1, 0, 0⟩)]⟩).2.pending.length + 2)
              (qget 1 ⟨0, [(100, ⟨256, -1, 0, 0⟩), (110, ⟨0, 0, 0, 0⟩),
                  (200, ⟨7, 1, 0, 0⟩)]⟩).1
              (1 - ((qget 1 ⟨0, [(100, ⟨256, -1, 0, 0⟩), (110, ⟨0, 0, 0, 0⟩),
                  (200, ⟨7, 1, 0, 0⟩)]⟩).2.now - 0) / 1000)
              (qget 1 ⟨0, [(100, ⟨256, -1, 0, 0⟩), (110, ⟨0, 0, 0, 0⟩),
                  (200, ⟨7, 1, 0, 0⟩)]⟩).2 = (ev1, x2, sR) ∧
          0 < x2 ∧
          sR.pending = (t0, e0) :: rest0 ∧
          qget 1 ⟨max sR.now t0, rest0⟩ = (some event2, ⟨200, []⟩) ∧
          event2.code ≠ BUTTON_PUSHED ∧
          ¬ ((event_time_in_ms event2 : ℚ) - 1000 > (⟨0, []⟩ : BPState).time_of_last_turn) ∧
          knob_turned 1000 (⟨200, []⟩ : QState).now ⟨0, []⟩ event2 = ⟨0, []⟩) :=
  C2_amended 1 1 1000 0 ⟨0, []⟩
    ⟨0, [(100, ⟨256, -1, 0, 0⟩), (110, ⟨0, 0, 0, 0⟩), (200, ⟨7, 1, 0, 0⟩)]⟩
    ⟨0, []⟩ ⟨200, []⟩ (by decide)

/-- C5: the code contradicts the spec here.  `set_long_click_time` writes the
attribute `__long_click_time`, while `__button_press` reads
`__long_press_time`; so the setter never changes any classification
decision (first conjunct, and the window it should have set is untouched,
second conjunct), and concretely a handler built with a 0.5 s window, after
`set_long_click_time(10)`, still classifies a press released at 600 ms as a
`LONG_CLICK`, which under a 10 s window the claim says should not happen. -/
theorem C5_long_press_setter_mismatch :
    (∀ (h : TimingState) (v time_pressed : ℚ) (st : BPState) (s : QState),
        handler_button_press (set_long_click_time h v) time_pressed st s =
          handler_button_press h time_pressed st s) ∧
    (∀ (h : TimingState) (v : ℚ),
        (set_long_click_time h v).long_press_time = h.long_press_time) ∧
    handler_button_press (set_long_click_time ⟨0, 1/2, 3/10, none⟩ 10) 0 ⟨0, []⟩
        ⟨0, [(600, ⟨256, 0, 0, 600000⟩)]⟩
      = some (⟨0, [ConsolidatedEventCode.LONG_CLICK]⟩, ⟨600, []⟩) :=
  ⟨fun _ _ _ _ _ => rfl, fun _ _ => rfl, by decide⟩

/-- C6: `set_led_brightness` clamps into `[0, 255]` and never rejects: the
stored brightness is always in range and is the value written; below 0
stores 0, above 255 stores 255, in-range values are stored unchanged; in
particular -5 stores 0 and 300 stores 255. -/
theorem C6_brightness_clamp (st : LedState) (v : ℤ) :
    0 ≤ (set_led_brightness st v).stored ∧
    (set_led_brightness st v).stored ≤ 255 ∧
    (set_led_brightness st v).writes = st.writes ++ [(set_led_brightness st v).stored] ∧
    (v < 0 → (set_led_brightness st v).stored = 0) ∧
    (255 < v → (set_led_brightness st v).stored = 255) ∧
    (0 ≤ v → v ≤ 255 → (set_led_brightness st v).stored = v) ∧
    (set_led_brightness st (-5)).stored = 0 ∧
    (set_led_brightness st 300).stored = 255 := by
  refine ⟨?_, ?_, ?_, ?_, ?_, ?_, ?_, ?_⟩ <;>
    simp only [set_led_brightness] <;> split_ifs <;> first | rfl | omega

/-- C6, applied: `set_led_brightness(300)` on a handler holding brightness
100 stores 255. -/
theorem C6_brightness_clamp_witness :
    0 ≤ (set_led_brightness ⟨100, []⟩ 300).stored :=
  (C6_brightness_clamp ⟨100, []⟩ 300).1

/-- The flash loop writes `clamp(brightness)` then `0`, `n` times over, and
leaves the stored brightness at 0 once it has run at least once. -/
theorem flash_loop_spec (n : ℕ) (b : ℤ) : ∀ st : LedState,
    (flash_loop n st b).writes = st.writes ++ (List.replicate n [ledClamp b, 0]).flatten ∧
    (flash_loop n st b).stored = if n = 0 then st.stored else 0 := by
  induction n with
  | zero => intro st; simp [flash_loop]
  | succ n ih =>
    intro st
    obtain ⟨hw, hs⟩ := ih (set_led_brightness (set_led_brightness st b) 0)
    constructor
    · rw [flash_loop, hw]
      simp [set_led_brightness, ledClamp, List.replicate_succ]
    · rw [flash_loop, hs]
      rw [if_neg (Nat.succ_ne_zero n)]
      rcases Nat.eq_zero_or_pos n with rfl | hn
      · simp [set_led_brightness]
      · rw [if_neg (Nat.pos_iff_ne_zero.mp hn)]

/-- C7: `flash_led` ends with the stored brightness it started with,
whatever the flash count and flash brightness; the device sees the clamped
flash value and 0 alternately, `count` times (so the restoration is of the
stored value - the last device write of a flash is 0). -/
theorem C7_flash_restores (st : LedState) (n : ℕ) (b : ℤ) :
    (flash_led st n b).stored = st.stored ∧
    (flash_led st n b).writes = st.writes ++ (List.replicate n [ledClamp b, 0]).flatten := by
  refine ⟨rfl, ?_⟩
  simpa [flash_led] using (flash_loop_spec n b st).1

/-- C10: calling `flash_led` with no brightness argument uses the value 100
that the module-level `led_brightness` held when the `def` ran - for every
current stored brightness the two default flashes write 100 (not the stored
value), and the stored brightness is restored afterwards. -/
theorem C10_flash_default (st : LedState) :
    (flash_led_defaults st).writes = st.writes ++ [100, 0, 100, 0] ∧
    (flash_led_defaults st).stored = st.stored := by
  constructor
  · simp [flash_led_defaults, flash_led, flash_loop, set_led_brightness, led_brightness]
  · rfl

/-- C8: `get_next` before `start` fails with the `CaptureNotStarted` error
and returns the pipeline state untouched, whatever the blocking policy;
once capture runs it pops the consolidated queue (the raw queue in raw-only
mode) and an empty queue after the wait yields `None`, not an error. -/
theorem C8_get_next_contract (p : PipelineState) (block : Bool) (timeout : Option ℚ) :
    (p.event_capture_running = false →
        get_next p block timeout = some (Except.error "CaptureNotStarted", p)) ∧
    (p.event_capture_running = true → p.consolidated_thread = true →
      (∀ e rest, p.consolidated_queue = e :: rest →
        get_next p block timeout =
          some (Except.ok (some (Sum.inl e)), { p with consolidated_queue := rest })) ∧
      (p.consolidated_queue = [] → (block = false ∨ timeout ≠ none) →
        get_next p block timeout = some (Except.ok none, p))) ∧
    (p.event_capture_running = true → p.consolidated_thread = false →
      (∀ e rest, p.raw_queue = e :: rest →
        get_next p block timeout =
          some (Except.ok (some (Sum.inr e)), { p with raw_queue := rest })) ∧
      (p.raw_queue = [] → (block = false ∨ timeout ≠ none) →
        get_next p block timeout = some (Except.ok none, p))) := by
  refine ⟨fun hrun => by simp [get_next, hrun], fun hrun hth => ⟨?_, ?_⟩,
    fun hrun hth => ⟨?_, ?_⟩⟩
  · intro e rest hq
    simp [get_next, hrun, hth, queue_get, hq]
  · intro hq hpol
    have hb : ¬ (block = true ∧ timeout = none) := by
      rcases hpol with h | h
      · rintro ⟨h1, -⟩; rw [h] at h1; cases h1
      · rintro ⟨-, h2⟩; exact h h2
    simp only [get_next, hrun, hth, queue_get, hq]
    simp only [if_neg hb]
    cases p
    simp_all
  · intro e rest hq
    simp [get_next, hrun, hth, queue_get, hq]
  · intro hq hpol
    have hb : ¬ (block = true ∧ timeout = none) := by
      rcases hpol with h | h
      · rintro ⟨h1, -⟩; rw [h] at h1; cases h1
      · rintro ⟨-, h2⟩; exact h h2
    simp only [get_next, hrun, hth, queue_get, hq]
    simp only [if_neg hb]
    cases p
    simp_all

/-- The race loop returns its arguments unchanged when the guard fails,
whatever the fuel. -/
theorem race_loop_exit (fuel : ℕ) (event : Option InputEvent) (x : ℚ) (s : QState)
    (h : ¬ (still_racing event ∧ 0 < x)) :
    race_loop fuel event x s = (event, x, s) := by
  cases fuel with
  | zero => rfl
  | succ n => rw [race_loop, if_neg h]

/-- One iteration of the race loop when the guard holds. -/
theorem race_loop_step (fuel : ℕ) (event : Option InputEvent) (x : ℚ) (s : QState)
    (h : still_racing event ∧ 0 < x) :
    race_loop (fuel + 1) event x s =
      race_loop fuel (qget x s).1 (x - ((qget x s).2.now - s.now) / 1000) (qget x s).2 := by
  rw [race_loop, if_pos h]

/-! Infrastructure for the binary64 model: correctness of the bounded
exponent search, the bracket `2^e ≤ q < 2^(e+1)`, and the half-ulp error
bound of `roundQ`. -/

/-- The exponent search never exceeds its fuel. -/
theorem climb_le_fuel (n k : ℕ) : climb n k ≤ k := by
  induction k with
  | zero => exact le_refl 0
  | succ k ih =>
    simp only [climb]
    split_ifs <;> omega

/-- The exponent search stays below the target: `2 ^ climb n k ≤ n`. -/
theorem pow_climb_le (n : ℕ) (hn : 1 ≤ n) (k : ℕ) : 2 ^ climb n k ≤ n := by
  induction k with
  | zero => simpa [climb] using hn
  | succ k ih =>
    simp only [climb]
    split_ifs with h
    · exact h
    · exact ih

/-- When the search stops before exhausting its fuel, the next power of two
overshoots. -/
theorem climb_stop (n k : ℕ) : climb n k < k → ¬ 2 ^ (climb n k + 1) ≤ n := by
  induction k with
  | zero => omega
  | succ k ih =>
    simp only [climb]
    split_ifs with h
    · intro hlt
      exact absurd h (ih (by omega))
    · intro _
      exact h

/-- `ilog2` is the floor base-2 logarithm on `[1, 2^256)`. -/
theorem ilog2_spec (n : ℕ) (hn : 1 ≤ n) (hub : n < 2 ^ 256) :
    2 ^ ilog2 n ≤ n ∧ n < 2 ^ (ilog2 n + 1) := by
  refine ⟨pow_climb_le n hn 256, ?_⟩
  by_cases h : climb n 256 < 256
  · exact not_le.mp (climb_stop n 256 h)
  · exfalso
    have h1 : climb n 256 = 256 := le_antisymm (climb_le_fuel n 256) (not_lt.mp h)
    have h2 := pow_climb_le n hn 256
    rw [h1] at h2
    omega

/-- `pow2` agrees with integer exponentiation `zpow` on `ℚ`. -/
theorem pow2_eq_zpow (e : ℤ) : pow2 e = (2 : ℚ) ^ e := by
  cases e with
  | ofNat n => simp [pow2]
  | negSucc n => simp [pow2, zpow_negSucc, one_div]

/-- `pow2` of a natural exponent. -/
theorem pow2_natCast (k : ℕ) : pow2 (k : ℤ) = (2 : ℚ) ^ k := by
  rw [pow2_eq_zpow, zpow_natCast]

/-- `pow2` is positive. -/
theorem pow2_pos (e : ℤ) : 0 < pow2 e := by
  rw [pow2_eq_zpow]
  exact zpow_pos (by norm_num) e

/-- `pow2` turns addition into multiplication. -/
theorem pow2_add (d e : ℤ) : pow2 (d + e) = pow2 d * pow2 e := by
  rw [pow2_eq_zpow, pow2_eq_zpow, pow2_eq_zpow]
  exact zpow_add₀ (by norm_num) d e

/-- `pow2` is monotone. -/
theorem pow2_mono {d e : ℤ} (h : d ≤ e) : pow2 d ≤ pow2 e := by
  rw [pow2_eq_zpow, pow2_eq_zpow]
  exact zpow_le_zpow_right₀ (by norm_num) h

/-- `pow2` is order-reflecting. -/
theorem pow2_lt_iff {d e : ℤ} : pow2 d < pow2 e ↔ d < e := by
  rw [pow2_eq_zpow, pow2_eq_zpow]
  exact zpow_lt_zpow_iff_right₀ (by norm_num)

/-- Round-half-even moves a rational by at most one half. -/
theorem rhe_sub_abs (m : ℚ) : |(rhe m : ℚ) - m| ≤ 1 / 2 := by
  have hm : (⌊m⌋ : ℚ) = m - Int.fract m := by
    rw [Int.self_sub_fract]
  have h0 := Int.fract_nonneg m
  have h1 := Int.fract_lt_one m
  unfold rhe
  split_ifs with ha hb hc <;> rw [abs_le] <;> push_cast <;> rw [hm] <;> constructor <;> linarith

/-- Round-half-even of a nonnegative rational is nonnegative. -/
theorem rhe_nonneg (m : ℚ) (h : 0 ≤ m) : 0 ≤ rhe m := by
  have := Int.floor_nonneg.mpr h
  unfold rhe
  split_ifs <;> omega

/-- Round-half-even exceeds the floor by at most one. -/
theorem rhe_le_floor_add_one (m : ℚ) : rhe m ≤ ⌊m⌋ + 1 := by
  unfold rhe
  split_ifs <;> omega

/-- Round-half-even of an integer is the integer itself. -/
theorem rhe_intCast (x : ℤ) : rhe (x : ℚ) = x := by
  unfold rhe
  rw [Int.fract_intCast]
  norm_num

/-- The exponent chosen by `qexp` brackets its argument:
`2^e ≤ q < 2^(e+1)` for positive `q` of bounded numerator and
denominator. -/
theorem qexp_spec (q : ℚ) (hq : 0 < q) (hnum : q.num.natAbs < 2 ^ 256)
    (hden : q.den < 2 ^ 256) :
    pow2 (qexp q) ≤ q ∧ q < pow2 (qexp q + 1) := by
  have hnumpos : 0 < q.num := Rat.num_pos.mpr hq
  have hn1 : 1 ≤ q.num.toNat := by omega
  have hnub : q.num.toNat < 2 ^ 256 := by omega
  have hd1 : 1 ≤ q.den := q.den_pos
  obtain ⟨hnl, hnu⟩ := ilog2_spec q.num.toNat hn1 hnub
  obtain ⟨hdl, hdu⟩ := ilog2_spec q.den hd1 hden
  simp only [qexp]
  generalize hA : ilog2 q.num.toNat = A at hnl hnu ⊢
  generalize hB : ilog2 q.den = B at hdl hdu ⊢
  have hqnd : q = (q.num.toNat : ℚ) / (q.den : ℚ) := by
    have hcast : ((q.num.toNat : ℤ) : ℚ) = (q.num : ℚ) := by
      rw [Int.toNat_of_nonneg (le_of_lt hnumpos)]
    push_cast at hcast
    rw [hcast, Rat.num_div_den]
  have hden0 : (0 : ℚ) < (q.den : ℚ) := by
    exact_mod_cast hd1
  have hnlQ : pow2 (A : ℤ) ≤ (q.num.toNat : ℚ) := by
    rw [pow2_natCast]
    exact_mod_cast hnl
  have hnuQ : (q.num.toNat : ℚ) < pow2 ((A : ℤ) + 1) := by
    have hc : ((A : ℤ) + 1) = ((A + 1 : ℕ) : ℤ) := by push_cast; ring
    rw [hc, pow2_natCast]
    exact_mod_cast hnu
  have hdlQ : pow2 (B : ℤ) ≤ (q.den : ℚ) := by
    rw [pow2_natCast]
    exact_mod_cast hdl
  have hduQ : (q.den : ℚ) < pow2 ((B : ℤ) + 1) := by
    have hc : ((B : ℤ) + 1) = ((B + 1 : ℕ) : ℤ) := by push_cast; ring
    rw [hc, pow2_natCast]
    exact_mod_cast hdu
  have hub : q < pow2 ((A : ℤ) - (B : ℤ) + 1) := by
    rw [hqnd, div_lt_iff₀ hden0]
    calc (q.num.toNat : ℚ) < pow2 ((A : ℤ) + 1) := hnuQ
      _ = pow2 ((A : ℤ) - (B : ℤ) + 1) * pow2 (B : ℤ) := by
          rw [← pow2_add]
          have he : (A : ℤ) + 1 = (A : ℤ) - (B : ℤ) + 1 + (B : ℤ) := by ring
          rw [he]
      _ ≤ pow2 ((A : ℤ) - (B : ℤ) + 1) * (q.den : ℚ) := by
          exact mul_le_mul_of_nonneg_left hdlQ (le_of_lt (pow2_pos _))
  have hlb : pow2 ((A : ℤ) - (B : ℤ) - 1) < q := by
    rw [hqnd, lt_div_iff₀ hden0]
    calc pow2 ((A : ℤ) - (B : ℤ) - 1) * (q.den : ℚ)
        < pow2 ((A : ℤ) - (B : ℤ) - 1) * pow2 ((B : ℤ) + 1) := by
          exact mul_lt_mul_of_pos_left hduQ (pow2_pos _)
      _ = pow2 (A : ℤ) := by
          rw [← pow2_add]
          have he : (A : ℤ) - (B : ℤ) - 1 + ((B : ℤ) + 1) = (A : ℤ) := by ring
          rw [he]
      _ ≤ (q.num.toNat : ℚ) := hnlQ
  split_ifs with h
  · exact ⟨h, hub⟩
  · refine ⟨le_of_lt hlb, ?_⟩
    have he : (A : ℤ) - (B : ℤ) - 1 + 1 = (A : ℤ) - (B : ℤ) := by ring
    rw [he]
    exact not_le.mp h

/-- `roundQ` of a nonpositive rational is zero (the branch Python's
nonnegative values never take, plus the exact zero). -/
theorem roundQ_nonpos (q : ℚ) (h : q ≤ 0) : roundQ q = 0 := by
  simp only [roundQ, if_pos h]

/-- `roundQ` never produces a negative value. -/
theorem roundQ_nonneg (q : ℚ) : 0 ≤ roundQ q := by
  simp only [roundQ]
  split_ifs with h
  · exact le_refl 0
  · have hq : 0 < q := not_le.mp h
    have hm : 0 ≤ q * pow2 (52 - qexp q) :=
      mul_nonneg (le_of_lt hq) (le_of_lt (pow2_pos _))
    exact mul_nonneg (le_of_lt (pow2_pos _)) (by exact_mod_cast rhe_nonneg _ hm)

/-- The half-ulp bound: binary64 rounding moves a nonnegative rational by at
most `q / 2^53` (one half of the unit in the last place of the 53-bit
significand). -/
theorem roundQ_err (q : ℚ) (hq : 0 ≤ q) (hnum : q.num.natAbs < 2 ^ 256)
    (hden : q.den < 2 ^ 256) :
    |roundQ q - q| ≤ q / 2 ^ 53 := by
  rcases eq_or_lt_of_le hq with heq | hq'
  · rw [← heq]
    simp [roundQ]
  · simp only [roundQ, if_neg (not_le.mpr hq')]
    obtain ⟨hl, hu⟩ := qexp_spec q hq' hnum hden
    generalize hE : qexp q = E at hl hu ⊢
    have hkey : pow2 (E - 52) * (q * pow2 (52 - E)) = q := by
      have h1 : pow2 (E - 52) * pow2 (52 - E) = 1 := by
        rw [← pow2_add, show E - 52 + (52 - E) = 0 from by ring]
        decide
      calc pow2 (E - 52) * (q * pow2 (52 - E))
          = q * (pow2 (E - 52) * pow2 (52 - E)) := by ring
        _ = q := by rw [h1, mul_one]
    calc |pow2 (E - 52) * (rhe (q * pow2 (52 - E)) : ℚ) - q|
        = |pow2 (E - 52) * ((rhe (q * pow2 (52 - E)) : ℚ) - q * pow2 (52 - E))| := by
          rw [mul_sub, hkey]
      _ = pow2 (E - 52) * |(rhe (q * pow2 (52 - E)) : ℚ) - q * pow2 (52 - E)| := by
          rw [abs_mul, abs_of_pos (pow2_pos _)]
      _ ≤ pow2 (E - 52) * (1 / 2) :=
          mul_le_mul_of_nonneg_left (rhe_sub_abs _) (le_of_lt (pow2_pos _))
      _ = pow2 (E - 53) := by
          rw [show (1 : ℚ) / 2 = pow2 (-1) from by decide, ← pow2_add,
            show E - 52 + -1 = E - 53 from by ring]
      _ ≤ q * pow2 (-53) := by
          rw [show E - 53 = E + -53 from by ring, pow2_add]
          exact mul_le_mul_of_nonneg_right hl (le_of_lt (pow2_pos _))
      _ = q / 2 ^ 53 := by
          rw [show pow2 (-53 : ℤ) = ((2 : ℚ) ^ (53 : ℕ))⁻¹ from by decide, div_eq_mul_inv]

/-- `roundQ` is exact on natural numbers below `2^53` (integers
representable in binary64). -/
theorem roundQ_exact_nat (M : ℕ) (hM : M < 2 ^ 53) : roundQ (M : ℚ) = (M : ℚ) := by
  rcases Nat.eq_zero_or_pos M with rfl | hM1
  · simp [roundQ]
  · have hq : (0 : ℚ) < (M : ℚ) := by exact_mod_cast hM1
    have hnum : ((M : ℚ)).num.natAbs < 2 ^ 256 := by
      rw [Rat.num_natCast]
      simpa using by omega
    have hden : ((M : ℚ)).den < 2 ^ 256 := by
      rw [Rat.den_natCast]
      omega
    obtain ⟨hl, hu⟩ := qexp_spec (M : ℚ) hq hnum hden
    simp only [roundQ, if_neg (not_le.mpr hq)]
    generalize hE : qexp (M : ℚ) = E at hl hu ⊢
    have hE0 : 0 ≤ E := by
      by_contra hneg
      push_neg at hneg
      have h1 : pow2 (E + 1) ≤ pow2 0 := pow2_mono (by omega)
      have h2 : (M : ℚ) < 1 := lt_of_lt_of_le hu (le_of_le_of_eq h1 (by decide))
      have h3 : M < 1 := by exact_mod_cast h2
      omega
    have hE52 : E ≤ 52 := by
      by_contra hgt
      push_neg at hgt
      have h1 : pow2 (53 : ℤ) ≤ pow2 E := pow2_mono (by omega)
      have h2 : pow2 (53 : ℤ) = ((2 ^ 53 : ℕ) : ℚ) := by
        rw [show (53 : ℤ) = ((53 : ℕ) : ℤ) from rfl, pow2_natCast]
        push_cast
        ring
      have h3 : ((2 ^ 53 : ℕ) : ℚ) ≤ (M : ℚ) := le_trans (le_of_eq h2.symm) (le_trans h1 hl)
      have h4 : (2 : ℕ) ^ 53 ≤ M := by exact_mod_cast h3
      omega
    have hj : (0 : ℤ) ≤ 52 - E := by omega
    have hp : ((2 : ℚ) ^ (52 - E).toNat) = pow2 (52 - E) := by
      rw [← pow2_natCast, Int.toNat_of_nonneg hj]
    have hmint : (M : ℚ) * pow2 (52 - E) = (((M * 2 ^ (52 - E).toNat : ℕ) : ℤ) : ℚ) := by
      rw [← hp]
      push_cast
      ring
    rw [hmint, rhe_intCast]
    push_cast
    rw [hp]
    calc pow2 (E - 52) * ((M : ℚ) * pow2 (52 - E))
        = (M : ℚ) * (pow2 (E - 52) * pow2 (52 - E)) := by ring
      _ = (M : ℚ) := by
          rw [← pow2_add, show E - 52 + (52 - E) = 0 from by ring,
            show pow2 (0 : ℤ) = 1 from by decide, mul_one]

/-- A rational written as `N / D` has denominator at most `D` and numerator
at most `N` in absolute value (reduction only shrinks both). -/
theorem rat_den_num_le (q : ℚ) (N : ℤ) (D : ℕ) (hD : 0 < D)
    (h : q = (N : ℚ) / (D : ℚ)) :
    q.den ≤ D ∧ q.num.natAbs ≤ N.natAbs := by
  have hD0 : ((D : ℚ)) ≠ 0 := Nat.cast_ne_zero.mpr (by omega)
  have hden0 : ((q.den : ℚ)) ≠ 0 := Nat.cast_ne_zero.mpr (by exact_mod_cast q.den_pos.ne')
  have hcross : q.num * (D : ℤ) = N * (q.den : ℤ) := by
    have h1 : (q.num : ℚ) / (q.den : ℚ) = (N : ℚ) / (D : ℚ) := by
      rw [Rat.num_div_den]
      exact h
    rw [div_eq_div_iff hden0 hD0] at h1
    exact_mod_cast h1
  have hdvd : (q.den : ℤ) ∣ q.num * (D : ℤ) := ⟨N, by rw [hcross]; ring⟩
  have hdvdNat : q.den ∣ q.num.natAbs * D := by
    have h2 := Int.natAbs_dvd_natAbs.mpr hdvd
    simpa [Int.natAbs_mul] using h2
  have hdenD : q.den ∣ D := (Nat.Coprime.dvd_of_dvd_mul_left q.reduced.symm) hdvdNat
  have hdenle : q.den ≤ D := Nat.le_of_dvd hD hdenD
  refine ⟨hdenle, ?_⟩
  have heq : q.num.natAbs * D = N.natAbs * q.den := by
    have h2 := congrArg Int.natAbs hcross
    simpa [Int.natAbs_mul] using h2
  have hle : q.num.natAbs * D ≤ N.natAbs * D := by
    rw [heq]
    exact Nat.mul_le_mul_left _ hdenle
  exact Nat.le_of_mul_le_mul_right hle hD

/-- The shape of a rounded value: `roundQ q` is a 53-bit natural numerator
over a power of two whose exponent is controlled by any lower bound on
`q`. -/
theorem roundQ_shape (q : ℚ) (hq : 0 < q) (hnum : q.num.natAbs < 2 ^ 256)
    (hden : q.den < 2 ^ 256) (hup : q < pow2 52) :
    ∃ R j : ℕ, R ≤ 2 ^ 53 ∧ roundQ q = (R : ℚ) / (2 ^ j : ℚ) ∧
      ∀ lb : ℤ, pow2 lb ≤ q → (j : ℤ) ≤ 52 - lb := by
  obtain ⟨hl, hu⟩ := qexp_spec q hq hnum hden
  simp only [roundQ, if_neg (not_le.mpr hq)]
  generalize hE : qexp q = E at hl hu ⊢
  have hE52 : E ≤ 51 := by
    by_contra hgt
    push_neg at hgt
    have h1 : pow2 (52 : ℤ) ≤ pow2 E := pow2_mono (by omega)
    exact absurd hl (not_le.mpr (lt_of_lt_of_le hup h1))
  have hm0 : 0 ≤ q * pow2 (52 - E) := mul_nonneg (le_of_lt hq) (le_of_lt (pow2_pos _))
  have hm53 : q * pow2 (52 - E) < ((2 ^ 53 : ℤ) : ℚ) := by
    calc q * pow2 (52 - E) < pow2 (E + 1) * pow2 (52 - E) :=
          mul_lt_mul_of_pos_right hu (pow2_pos _)
      _ = pow2 (53 : ℤ) := by rw [← pow2_add, show E + 1 + (52 - E) = 53 from by ring]
      _ = ((2 ^ 53 : ℤ) : ℚ) := by decide
  have hrheub : rhe (q * pow2 (52 - E)) ≤ 2 ^ 53 := by
    have h1 := rhe_le_floor_add_one (q * pow2 (52 - E))
    have h2 : ⌊q * pow2 (52 - E)⌋ < 2 ^ 53 := Int.floor_lt.mpr hm53
    omega
  have hrhe0 : 0 ≤ rhe (q * pow2 (52 - E)) := rhe_nonneg _ hm0
  have hj : (0 : ℤ) ≤ 52 - E := by omega
  refine ⟨(rhe (q * pow2 (52 - E))).toNat, (52 - E).toNat, by omega, ?_, ?_⟩
  · have hcast : (((rhe (q * pow2 (52 - E))).toNat : ℕ) : ℚ)
        = ((rhe (q * pow2 (52 - E)) : ℤ) : ℚ) := by
      exact_mod_cast congrArg (fun z : ℤ => (z : ℚ)) (Int.toNat_of_nonneg hrhe0)
    rw [hcast]
    have hp : ((2 : ℚ) ^ (52 - E).toNat) = pow2 (52 - E) := by
      rw [← pow2_natCast, Int.toNat_of_nonneg hj]
    rw [hp, eq_div_iff (ne_of_gt (pow2_pos _))]
    calc pow2 (E - 52) * (rhe (q * pow2 (52 - E)) : ℚ) * pow2 (52 - E)
        = (rhe (q * pow2 (52 - E)) : ℚ) * (pow2 (E - 52) * pow2 (52 - E)) := by ring
      _ = (rhe (q * pow2 (52 - E)) : ℚ) := by
          rw [← pow2_add, show E - 52 + (52 - E) = 0 from by ring,
            show pow2 (0 : ℤ) = 1 from by decide, mul_one]
  · intro lb hlb
    have hlbE : lb ≤ E := by
      by_contra hgt
      push_neg at hgt
      have h1 : pow2 (E + 1) ≤ pow2 lb := pow2_mono (by omega)
      exact absurd (lt_of_lt_of_le hu (le_trans h1 hlb)) (lt_irrefl q)
    omega

/-- C9, refuted at a concrete input: for `sec = 2^52 + 1`, `usec = 0` the
double-precision evaluation `int((usec/1000000.0 + sec) * 1000)` rounds the
product `4503599627370497000` up to the nearest representable double
`4503599627370497024`, so the computed timestamp differs from the exact
`floor((usec/1_000_000 + sec) * 1000)` by 24 ms. -/
theorem C9_counterexample :
    event_time_in_ms ⟨0, 0, 4503599627370497, 0⟩ = 4503599627370497024 ∧
    event_time_in_ms_spec ⟨0, 0, 4503599627370497, 0⟩ = 4503599627370497000 ∧
    event_time_in_ms ⟨0, 0, 4503599627370497, 0⟩ ≠
      event_time_in_ms_spec ⟨0, 0, 4503599627370497, 0⟩ :=
  ⟨by decide, by decide, by decide⟩

/-- C9 as amended: for every record with `sec ≤ 2^40` (comfortably beyond
any real device clock) and `usec < 10^6`, the double-precision timestamp
computed by `event_time_in_ms` differs from the exact
`floor((usec/1_000_000 + sec) * 1000)` by at most one millisecond; the
rounding of the three float operations keeps the accumulated error below
half a millisecond. -/
theorem C9_amended (e : InputEvent) (hsec : e.sec ≤ 2 ^ 40) (husec : e.usec < 1000000) :
    |event_time_in_ms e - event_time_in_ms_spec e| ≤ 1 := by
  have husec53 : e.usec < 2 ^ 53 := by omega
  have hsec53 : e.sec < 2 ^ 53 := by omega
  have hru : roundQ (e.usec : ℚ) = (e.usec : ℚ) := roundQ_exact_nat _ husec53
  have hrs : roundQ (e.sec : ℚ) = (e.sec : ℚ) := roundQ_exact_nat _ hsec53
  rcases Nat.eq_zero_or_pos e.usec with hu0 | hu1
  · -- no microseconds: every intermediate value is exactly representable
    have h1000 : e.sec * 1000 < 2 ^ 53 := by omega
    have hmul : ((e.sec : ℚ)) * 1000 = ((e.sec * 1000 : ℕ) : ℚ) := by push_cast; ring
    simp only [event_time_in_ms, event_time_in_ms_spec, hu0, Nat.cast_zero, zero_div,
      roundQ_nonpos 0 (le_refl 0), add_zero, zero_add, hrs]
    rw [hmul, roundQ_exact_nat _ h1000]
    simp only [pyTrunc]
    rw [if_pos (by positivity)]
    simp
  · simp only [event_time_in_ms, event_time_in_ms_spec, hru, hrs]
    set u : ℚ := (e.usec : ℚ) / 1000000 with hu_def
    set a : ℚ := roundQ u with ha_def
    set q2 : ℚ := (e.sec : ℚ) + a with hq2_def
    set b : ℚ := roundQ q2 with hb_def
    set q3 : ℚ := b * 1000 with hq3_def
    set c : ℚ := roundQ q3 with hc_def
    have hu_pos : 0 < u := by
      rw [hu_def]
      have : (0 : ℚ) < (e.usec : ℚ) := by exact_mod_cast hu1
      positivity
    have hu_lt1 : u < 1 := by
      rw [hu_def, div_lt_one (by norm_num)]
      exact_mod_cast husec
    have hu_lb : pow2 (-20) ≤ u := by
      rw [hu_def, show pow2 (-20 : ℤ) = (1 : ℚ) / 1048576 from by decide,
        le_div_iff₀ (by norm_num : (0 : ℚ) < 1000000)]
      calc (1 : ℚ) / 1048576 * 1000000 ≤ 1 := by norm_num
        _ ≤ (e.usec : ℚ) := by exact_mod_cast hu1
    obtain ⟨hu_den, hu_num⟩ := rat_den_num_le u (e.usec : ℤ) 1000000 (by norm_num)
      (by rw [hu_def]; push_cast; ring)
    have hu_num256 : u.num.natAbs < 2 ^ 256 := by
      have h1 : ((e.usec : ℤ)).natAbs = e.usec := Int.natAbs_ofNat _
      omega
    have hu_den256 : u.den < 2 ^ 256 := by omega
    have err_a : |a - u| ≤ u / 2 ^ 53 := roundQ_err u hu_pos.le hu_num256 hu_den256
    obtain ⟨err_a_lo, err_a_hi⟩ := abs_le.mp err_a
    have h53pos : (0 : ℚ) < 2 ^ 53 := by norm_num
    have hud_lt : u / 2 ^ 53 < u := by
      rw [div_lt_iff₀ h53pos]
      nlinarith [hu_pos]
    have ha_pos : 0 < a := by linarith
    have ha_half : u / 2 ≤ a := by
      have hd : u / 2 ^ 53 ≤ u / 2 := by
        rw [div_le_div_iff₀ h53pos (by norm_num : (0 : ℚ) < 2)]
        nlinarith [hu_pos]
      linarith
    have hu52 : u < pow2 52 := by
      have h52 : (1 : ℚ) ≤ pow2 52 := by
        rw [show (52 : ℤ) = ((52 : ℕ) : ℤ) from by norm_num, pow2_natCast]
        norm_num
      linarith
    obtain ⟨R1, j1, hR1, ha_eq, hj1f⟩ := roundQ_shape u hu_pos hu_num256 hu_den256 hu52
    have hj1 : j1 ≤ 72 := by
      have := hj1f (-20) hu_lb
      omega
    have hsecQ : (0 : ℚ) ≤ (e.sec : ℚ) := by positivity
    have hq2_pos : 0 < q2 := by rw [hq2_def]; linarith
    have hq2rep : q2 = (((e.sec * 2 ^ j1 + R1 : ℕ) : ℤ) : ℚ) / ((2 ^ j1 : ℕ) : ℚ) := by
      rw [hq2_def, ha_def, ha_eq]
      have h2j : ((2 ^ j1 : ℕ) : ℚ) ≠ 0 := by positivity
      push_cast
      field_simp
    obtain ⟨hq2_den, hq2_num⟩ := rat_den_num_le q2 ((e.sec * 2 ^ j1 + R1 : ℕ) : ℤ)
      (2 ^ j1) (by positivity) hq2rep
    have hpowj1 : (2 : ℕ) ^ j1 ≤ 2 ^ 72 := Nat.pow_le_pow_right (by norm_num) hj1
    have hsecpow : e.sec * 2 ^ j1 ≤ 2 ^ 40 * 2 ^ 72 := Nat.mul_le_mul hsec hpowj1
    have hq2_num256 : q2.num.natAbs < 2 ^ 256 := by
      have h1 : (((e.sec * 2 ^ j1 + R1 : ℕ) : ℤ)).natAbs = e.sec * 2 ^ j1 + R1 :=
        Int.natAbs_ofNat _
      have h2 : (2 : ℕ) ^ 40 * 2 ^ 72 = 2 ^ 112 := by norm_num [← pow_add]
      omega
    have hq2_den256 : q2.den < 2 ^ 256 := by
      have : (2 : ℕ) ^ 72 < 2 ^ 256 := by norm_num
      omega
    have err_b : |b - q2| ≤ q2 / 2 ^ 53 := roundQ_err q2 hq2_pos.le hq2_num256 hq2_den256
    obtain ⟨err_b_lo, err_b_hi⟩ := abs_le.mp err_b
    have hsecQ_ub : (e.sec : ℚ) ≤ (2 : ℚ) ^ 40 := by
      exact_mod_cast hsec
    have ha_ub : a ≤ 2 := by nlinarith [hu_lt1, hu_pos]
    have hq2_ub : q2 ≤ (2 : ℚ) ^ 40 + 2 := by rw [hq2_def]; linarith
    have hq2_lb : pow2 (-21) ≤ q2 := by
      have h1 : pow2 (-21 : ℤ) = pow2 (-20 : ℤ) / 2 := by decide
      have h4 : a ≤ q2 := by rw [hq2_def]; linarith
      rw [h1]
      linarith [hu_lb, ha_half]
    have hq2_52 : q2 < pow2 52 := by
      have hn : ((2 : ℚ) ^ 40 + 2) < pow2 52 := by
        rw [show (52 : ℤ) = ((52 : ℕ) : ℤ) from by norm_num, pow2_natCast]
        norm_num
      linarith
    obtain ⟨R2, j2, hR2, hb_eq, hj2f⟩ := roundQ_shape q2 hq2_pos hq2_num256 hq2_den256 hq2_52
    have hj2 : j2 ≤ 73 := by
      have := hj2f (-21) hq2_lb
      omega
    have hq2d53 : q2 / 2 ^ 53 ≤ 1 := by
      rw [div_le_one h53pos]
      calc q2 ≤ (2 : ℚ) ^ 40 + 2 := hq2_ub
        _ ≤ 2 ^ 53 := by norm_num
    have hb_ub : b ≤ (2 : ℚ) ^ 40 + 3 := by linarith
    have hb_pos : 0 < b := by
      have hlt : q2 / 2 ^ 53 < q2 := by
        rw [div_lt_iff₀ h53pos]
        nlinarith [hq2_pos]
      linarith
    have hq3_pos : 0 < q3 := by
      rw [hq3_def]
      exact mul_pos hb_pos (by norm_num)
    have hq3rep : q3 = (((1000 * R2 : ℕ) : ℤ) : ℚ) / ((2 ^ j2 : ℕ) : ℚ) := by
      rw [hq3_def, hb_def, hb_eq]
      push_cast
      field_simp
      ring
    obtain ⟨hq3_den, hq3_num⟩ := rat_den_num_le q3 ((1000 * R2 : ℕ) : ℤ) (2 ^ j2)
      (by positivity) hq3rep
    have hq3_num256 : q3.num.natAbs < 2 ^ 256 := by
      have h1 : (((1000 * R2 : ℕ) : ℤ)).natAbs = 1000 * R2 := Int.natAbs_ofNat _
      have h2 : 1000 * R2 ≤ 1000 * 2 ^ 53 := Nat.mul_le_mul_left _ hR2
      omega
    have hq3_den256 : q3.den < 2 ^ 256 := by
      have hpowj2 : (2 : ℕ) ^ j2 ≤ 2 ^ 73 := Nat.pow_le_pow_right (by norm_num) hj2
      have h73 : (2 : ℕ) ^ 73 < 2 ^ 256 := by norm_num
      omega
    have err_c : |c - q3| ≤ q3 / 2 ^ 53 := roundQ_err q3 hq3_pos.le hq3_num256 hq3_den256
    obtain ⟨err_c_lo, err_c_hi⟩ := abs_le.mp err_c
    have hq3_ub : q3 ≤ 1000 * ((2 : ℚ) ^ 40 + 3) := by
      rw [hq3_def]
      linarith
    have hdiff : |c - (u + (e.sec : ℚ)) * 1000| ≤ 1 / 2 := by
      have t2 : |q3 - q2 * 1000| ≤ 1000 * (q2 / 2 ^ 53) := by
        rw [hq3_def, show b * 1000 - q2 * 1000 = (b - q2) * 1000 from by ring, abs_mul,
          show |(1000 : ℚ)| = 1000 from by norm_num]
        nlinarith [err_b, abs_nonneg (b - q2)]
      have t3 : |q2 * 1000 - (u + (e.sec : ℚ)) * 1000| ≤ 1000 * (u / 2 ^ 53) := by
        rw [show q2 * 1000 - (u + (e.sec : ℚ)) * 1000 = (a - u) * 1000 from by
            rw [hq2_def]; ring,
          abs_mul, show |(1000 : ℚ)| = 1000 from by norm_num]
        nlinarith [err_a, abs_nonneg (a - u)]
      have s1 : |c - (u + (e.sec : ℚ)) * 1000| ≤ |c - q3| + |q3 - (u + (e.sec : ℚ)) * 1000| :=
        abs_sub_le _ _ _
      have s2 : |q3 - (u + (e.sec : ℚ)) * 1000|
          ≤ |q3 - q2 * 1000| + |q2 * 1000 - (u + (e.sec : ℚ)) * 1000| :=
        abs_sub_le _ _ _
      have n1 : q3 / 2 ^ 53 ≤ 1000 * ((2 : ℚ) ^ 40 + 3) / 2 ^ 53 := by gcongr
      have n2 : q2 / 2 ^ 53 ≤ ((2 : ℚ) ^ 40 + 2) / 2 ^ 53 := by gcongr
      have n3 : u / 2 ^ 53 ≤ 1 / 2 ^ 53 := by gcongr
      have numeric : 1000 * ((2 : ℚ) ^ 40 + 3) / 2 ^ 53 + 1000 * (((2 : ℚ) ^ 40 + 2) / 2 ^ 53)
          + 1000 * ((1 : ℚ) / 2 ^ 53) ≤ 1 / 2 := by norm_num
      linarith
    have hc0 : 0 ≤ c := by rw [hc_def]; exact roundQ_nonneg q3
    obtain ⟨hd_lo, hd_hi⟩ := abs_le.mp hdiff
    have h1 : ⌊c⌋ ≤ ⌊(u + (e.sec : ℚ)) * 1000⌋ + 1 := by
      have hcle : c ≤ (u + (e.sec : ℚ)) * 1000 + ((1 : ℤ) : ℚ) := by push_cast; linarith
      calc ⌊c⌋ ≤ ⌊(u + (e.sec : ℚ)) * 1000 + ((1 : ℤ) : ℚ)⌋ := Int.floor_le_floor hcle
        _ = ⌊(u + (e.sec : ℚ)) * 1000⌋ + 1 := Int.floor_add_int _ _
    have h2 : ⌊(u + (e.sec : ℚ)) * 1000⌋ ≤ ⌊c⌋ + 1 := by
      have hvle : (u + (e.sec : ℚ)) * 1000 ≤ c + ((1 : ℤ) : ℚ) := by push_cast; linarith
      calc ⌊(u + (e.sec : ℚ)) * 1000⌋ ≤ ⌊c + ((1 : ℤ) : ℚ)⌋ := Int.floor_le_floor hvle
        _ = ⌊c⌋ + 1 := Int.floor_add_int _ _
    simp only [pyTrunc, if_pos hc0]
    rw [abs_le]
    omega

/-- C9 as amended, applied: at `sec = 1`, `usec = 500000` the hypotheses hold
and the computed timestamp is within one millisecond of the exact floor. -/
theorem C9_amended_witness :
    (⟨0, 0, 1, 500000⟩ : InputEvent).sec ≤ 2 ^ 40 ∧
    (⟨0, 0, 1, 500000⟩ : InputEvent).usec < 1000000 ∧
    |event_time_in_ms ⟨0, 0, 1, 500000⟩ - event_time_in_ms_spec ⟨0, 0, 1, 500000⟩| ≤ 1 :=
  ⟨by decide, by decide, C9_amended ⟨0, 0, 1, 500000⟩ (by decide) (by decide)⟩

/-- While only non-button records precede a button edge that arrives after
the race deadline `now + 1000 * x`, the race loop ends with its countdown at
or below zero, consuming only non-button records and never reaching the
button edge. -/
theorem race_loop_no_edge (tb : ℚ) (be : InputEvent) (rest : List (ℚ × InputEvent)) :
    ∀ (turns : List (ℚ × InputEvent)) (fuel : ℕ) (event : Option InputEvent) (x now : ℚ),
      (∀ p ∈ turns, (p.2).code ≠ BUTTON_PUSHED) →
      still_racing event = true →
      now + 1000 * x < tb →
      turns.length + 2 ≤ fuel →
      ∃ event2 x2 now2 turns2,
        race_loop fuel event x ⟨now, turns ++ (tb, be) :: rest⟩ =
          (event2, x2, ⟨now2, turns2 ++ (tb, be) :: rest⟩) ∧
        x2 ≤ 0 ∧ (∀ p ∈ turns2, (p.2).code ≠ BUTTON_PUSHED) := by
  intro turns
  induction turns with
  | nil =>
    intro fuel event x now hturns hrace hdl hfuel
    by_cases hx : 0 < x
    · obtain ⟨f, rfl⟩ : ∃ f, fuel = f + 1 := ⟨fuel - 1, by omega⟩
      rw [race_loop_step _ _ _ _ ⟨hrace, hx⟩]
      have hq : qget x ⟨now, [] ++ (tb, be) :: rest⟩
          = (none, ⟨now + 1000 * x, (tb, be) :: rest⟩) := by
        simp only [List.nil_append, qget]
        rw [if_neg (not_le.mpr hdl)]
      rw [hq]
      dsimp only
      have hx0 : x - (now + 1000 * x - now) / 1000 = 0 := by ring
      rw [hx0, race_loop_exit _ _ _ _ (by simp)]
      exact ⟨none, 0, now + 1000 * x, [], rfl, le_refl 0, by simp⟩
    · rw [race_loop_exit _ _ _ _ (fun hc => hx hc.2)]
      exact ⟨event, x, now, [], rfl, not_lt.mp hx, by simp⟩
  | cons p turns ih =>
    obtain ⟨t1, e1⟩ := p
    intro fuel event x now hturns hrace hdl hfuel
    by_cases hx : 0 < x
    · obtain ⟨f, rfl⟩ : ∃ f, fuel = f + 1 := ⟨fuel - 1, by omega⟩
      rw [race_loop_step _ _ _ _ ⟨hrace, hx⟩]
      by_cases ht : t1 ≤ now + 1000 * x
      · have hq : qget x ⟨now, ((t1, e1) :: turns) ++ (tb, be) :: rest⟩
            = (some e1, ⟨max now t1, turns ++ (tb, be) :: rest⟩) := by
          simp only [List.cons_append, qget]
          rw [if_pos ht]
        rw [hq]
        dsimp only
        have he1 : e1.code ≠ BUTTON_PUSHED := hturns (t1, e1) (by simp)
        have hdl2 : max now t1 + 1000 * (x - (max now t1 - now) / 1000) < tb := by
          have : max now t1 + 1000 * (x - (max now t1 - now) / 1000) = now + 1000 * x := by
            ring
          rw [this]; exact hdl
        exact ih f (some e1) _ _ (fun p hp => hturns p (by simp [hp]))
          (by simp [still_racing, he1]) hdl2 (by simpa using Nat.lt_of_succ_le (by simpa using hfuel))
      · have hq : qget x ⟨now, ((t1, e1) :: turns) ++ (tb, be) :: rest⟩
            = (none, ⟨now + 1000 * x, ((t1, e1) :: turns) ++ (tb, be) :: rest⟩) := by
          simp only [List.cons_append, qget]
          rw [if_neg ht]
        rw [hq]
        dsimp only
        have hx0 : x - (now + 1000 * x - now) / 1000 = 0 := by ring
        rw [hx0, race_loop_exit _ _ _ _ (by simp)]
        exact ⟨none, 0, now + 1000 * x, (t1, e1) :: turns, rfl, le_refl 0, hturns⟩
    · rw [race_loop_exit _ _ _ _ (fun hc => hx hc.2)]
      exact ⟨event, x, now, (t1, e1) :: turns, rfl, not_lt.mp hx, hturns⟩

/-- The drain after a long click discards every non-button record and stops
right after the first button edge, leaving the records behind it queued. -/
theorem drain_until_button_spec (tb : ℚ) (be : InputEvent) (rest : List (ℚ × InputEvent))
    (hbe : be.code = BUTTON_PUSHED) :
    ∀ (turns : List (ℚ × InputEvent)) (now : ℚ),
      (∀ p ∈ turns, (p.2).code ≠ BUTTON_PUSHED) →
      ∃ now2, drain_until_button (turns ++ (tb, be) :: rest) now = some (now2, rest) := by
  intro turns
  induction turns with
  | nil =>
    intro now _
    exact ⟨max now tb, by simp [drain_until_button, hbe]⟩
  | cons p turns ih =>
    obtain ⟨t1, e1⟩ := p
    intro now hturns
    have he1 : e1.code ≠ BUTTON_PUSHED := hturns (t1, e1) (by simp)
    obtain ⟨now2, h⟩ := ih (max now t1) (fun p hp => hturns p (by simp [hp]))
    exact ⟨now2, by simpa [drain_until_button, he1] using h⟩

/-- The pre-loop pop of `__button_press` followed by the race loop, on a
queue of non-button records and then a button edge later than the long-press
deadline: the race ends with the countdown spent and the button edge still
queued behind (possibly) more non-button records. -/
theorem pre_race_no_edge (tb : ℚ) (be : InputEvent) (rest : List (ℚ × InputEvent))
    (turns : List (ℚ × InputEvent)) (time_pressed long_press_time : ℚ)
    (hturns : ∀ p ∈ turns, (p.2).code ≠ BUTTON_PUSHED)
    (hlate : time_pressed + 1000 * long_press_time < tb) :
    ∃ event2 x2 now2 turns2,
      race_loop ((qget long_press_time ⟨time_pressed, turns ++ (tb, be) :: rest⟩).2.pending.length + 2)
          (qget long_press_time ⟨time_pressed, turns ++ (tb, be) :: rest⟩).1
          (long_press_time -
            ((qget long_press_time ⟨time_pressed, turns ++ (tb, be) :: rest⟩).2.now - time_pressed) / 1000)
          (qget long_press_time ⟨time_pressed, turns ++ (tb, be) :: rest⟩).2 =
        (event2, x2, ⟨now2, turns2 ++ (tb, be) :: rest⟩) ∧
      x2 ≤ 0 ∧ (∀ p ∈ turns2, (p.2).code ≠ BUTTON_PUSHED) := by
  cases turns with
  | nil =>
    have hq : qget long_press_time ⟨time_pressed, [] ++ (tb, be) :: rest⟩
        = (none, ⟨time_pressed + 1000 * long_press_time, (tb, be) :: rest⟩) := by
      simp only [List.nil_append, qget]
      rw [if_neg (not_le.mpr hlate)]
    rw [hq]
    dsimp only
    have hx0 : long_press_time - (time_pressed + 1000 * long_press_time - time_pressed) / 1000 = 0 := by
      ring
    rw [hx0, race_loop_exit _ _ _ _ (by simp)]
    exact ⟨none, 0, time_pressed + 1000 * long_press_time, [], rfl, le_refl 0, by simp⟩
  | cons p turns =>
    obtain ⟨t1, e1⟩ := p
    have he1 : e1.code ≠ BUTTON_PUSHED := hturns (t1, e1) (by simp)
    by_cases ht : t1 ≤ time_pressed + 1000 * long_press_time
    · have hq : qget long_press_time ⟨time_pressed, ((t1, e1) :: turns) ++ (tb, be) :: rest⟩
          = (some e1, ⟨max time_pressed t1, turns ++ (tb, be) :: rest⟩) := by
        simp only [List.cons_append, qget]
        rw [if_pos ht]
      rw [hq]
      dsimp only
      have hdl : max time_pressed t1 +
          1000 * (long_press_time - (max time_pressed t1 - time_pressed) / 1000) =
          time_pressed + 1000 * long_press_time := by
        ring
      exact race_loop_no_edge tb be rest turns _ (some e1) _ _
        (fun p hp => hturns p (by simp [hp])) (by simp [still_racing, he1])
        (by rw [hdl]; exact hlate) (by simp)
    · have hq : qget long_press_time ⟨time_pressed, ((t1, e1) :: turns) ++ (tb, be) :: rest⟩
          = (none, ⟨time_pressed + 1000 * long_press_time,
                    ((t1, e1) :: turns) ++ (tb, be) :: rest⟩) := by
        simp only [List.cons_append, qget]
        rw [if_neg ht]
      rw [hq]
      dsimp only
      have hx0 : long_press_time - (time_pressed + 1000 * long_press_time - time_pressed) / 1000 = 0 := by
        ring
      rw [hx0, race_loop_exit _ _ _ _ (by simp)]
      exact ⟨none, 0, time_pressed + 1000 * long_press_time, (t1, e1) :: turns, rfl,
        le_refl 0, hturns⟩

/-- C3: when every record before the next button edge is a knob turn and
that edge arrives only after the long-press window has expired,
`__button_press` pushes exactly one `LONG_CLICK` (the debouncer state
`time_of_last_turn` is untouched - no turn event is ever emitted), and its
blocking drain consumes every one of those knob-turn records together with
the button edge, leaving exactly the later records queued. -/
theorem C3_long_click (long_press_time double_click_time turn_delay time_pressed : ℚ)
    (st : BPState) (turns : List (ℚ × InputEvent)) (tb : ℚ) (be : InputEvent)
    (rest : List (ℚ × InputEvent))
    (hLP : 0 < long_press_time)
    (hturns : ∀ p ∈ turns, (p.2).code = KNOB_TURNED)
    (hbe : be.code = BUTTON_PUSHED)
    (hlate : time_pressed + 1000 * long_press_time < tb) :
    ∃ now2,
      button_press long_press_time double_click_time turn_delay time_pressed st
          ⟨time_pressed, turns ++ (tb, be) :: rest⟩
        = some ({ st with consolidated_queue :=
                    st.consolidated_queue ++ [ConsolidatedEventCode.LONG_CLICK] },
                ⟨now2, rest⟩) := by
  have hturns' : ∀ p ∈ turns, (p.2).code ≠ BUTTON_PUSHED := by
    intro p hp
    rw [hturns p hp]
    decide
  obtain ⟨event2, x2, now2, turns2, hrace, hx2, hturns2⟩ :=
    pre_race_no_edge tb be rest turns time_pressed long_press_time hturns' hlate
  obtain ⟨now3, hdrain⟩ :=
    drain_until_button_spec tb be rest hbe turns2 now2 hturns2
  refine ⟨now3, ?_⟩
  simp only [button_press, hrace]
  rw [if_pos hx2, hdrain]

/-- C3, applied: press at 0 with a 1 s window; knob turns at 100 ms and
2000 ms, the release only at 3000 ms, a later knob turn at 4000 ms: the run
emits exactly one `LONG_CLICK`, discards both held-down knob turns and the
edge, and leaves the 4000 ms turn queued. -/
theorem C3_long_click_witness :
    ∃ now2,
      button_press 1 1 0 0 (⟨0, []⟩ : BPState)
          ⟨0, [(100, ⟨7, 1, 0, 0⟩), (2000, ⟨7, -1, 0, 0⟩)] ++
              (3000, ⟨256, 0, 3, 0⟩) :: [(4000, ⟨7, 1, 0, 0⟩)]⟩
        = some (⟨0, [ConsolidatedEventCode.LONG_CLICK]⟩, ⟨now2, [(4000, ⟨7, 1, 0, 0⟩)]⟩) :=
  C3_long_click 1 1 0 0 ⟨0, []⟩ [(100, ⟨7, 1, 0, 0⟩), (2000, ⟨7, -1, 0, 0⟩)]
    3000 ⟨256, 0, 3, 0⟩ [(4000, ⟨7, 1, 0, 0⟩)] (by norm_num) (by decide) rfl (by norm_num)

/-- C4: a release (button edge of either sign) arriving within the
long-press window, followed by the quirk record, resolves by the next record
within the double-click window: no record in the window gives exactly one
`SINGLE_CLICK`; a button edge gives exactly one `DOUBLE_CLICK`; a knob-delta
gives no click and is handed to `__knob_turned` under its normal debounce
rule. -/
theorem C4_short_press (long_press_time double_click_time turn_delay time_pressed : ℚ)
    (st : BPState) (t1 t2 : ℚ) (rel nul : InputEvent) (rest : List (ℚ × InputEvent))
    (hrel : rel.code = BUTTON_PUSHED)
    (ht1 : time_pressed ≤ t1)
    (hwin : t1 < time_pressed + 1000 * long_press_time)
    (ht2 : t1 ≤ t2) :
    (rest = [] →
      button_press long_press_time double_click_time turn_delay time_pressed st
          ⟨time_pressed, (t1, rel) :: (t2, nul) :: rest⟩
        = some ({ st with consolidated_queue :=
                    st.consolidated_queue ++ [ConsolidatedEventCode.SINGLE_CLICK] },
                ⟨t2 + 1000 * double_click_time, []⟩)) ∧
    (∀ t3 e3 rest2, rest = (t3, e3) :: rest2 →
      (t2 + 1000 * double_click_time < t3 →
        button_press long_press_time double_click_time turn_delay time_pressed st
            ⟨time_pressed, (t1, rel) :: (t2, nul) :: rest⟩
          = some ({ st with consolidated_queue :=
                      st.consolidated_queue ++ [ConsolidatedEventCode.SINGLE_CLICK] },
                  ⟨t2 + 1000 * double_click_time, (t3, e3) :: rest2⟩)) ∧
      (t3 ≤ t2 + 1000 * double_click_time → e3.code = BUTTON_PUSHED →
        button_press long_press_time double_click_time turn_delay time_pressed st
            ⟨time_pressed, (t1, rel) :: (t2, nul) :: rest⟩
          = some ({ st with consolidated_queue :=
                      st.consolidated_queue ++ [ConsolidatedEventCode.DOUBLE_CLICK] },
                  ⟨max t2 t3, rest2⟩)) ∧
      (t3 ≤ t2 + 1000 * double_click_time → e3.code ≠ BUTTON_PUSHED →
        button_press long_press_time double_click_time turn_delay time_pressed st
            ⟨time_pressed, (t1, rel) :: (t2, nul) :: rest⟩
          = some (knob_turned turn_delay (max t2 t3) st e3, ⟨max t2 t3, rest2⟩))) := by
  have hx1 : 0 < long_press_time - (t1 - time_pressed) / 1000 := by
    rw [sub_pos, div_lt_iff₀ (by norm_num : (0:ℚ) < 1000)]
    linarith
  have hq1 : qget long_press_time ⟨time_pressed, (t1, rel) :: (t2, nul) :: rest⟩
      = (some rel, ⟨t1, (t2, nul) :: rest⟩) := by
    simp only [qget]
    rw [if_pos (le_of_lt hwin), max_eq_right ht1]
  have hmain : button_press long_press_time double_click_time turn_delay time_pressed st
      ⟨time_pressed, (t1, rel) :: (t2, nul) :: rest⟩ =
      (match (qget double_click_time ⟨t2, rest⟩).1 with
       | none =>
         some ({ st with consolidated_queue :=
                   st.consolidated_queue ++ [ConsolidatedEventCode.SINGLE_CLICK] },
               (qget double_click_time ⟨t2, rest⟩).2)
       | some event2 =>
         if event2.code = BUTTON_PUSHED then
           some ({ st with consolidated_queue :=
                     st.consolidated_queue ++ [ConsolidatedEventCode.DOUBLE_CLICK] },
                 (qget double_click_time ⟨t2, rest⟩).2)
         else
           some (knob_turned turn_delay (qget double_click_time ⟨t2, rest⟩).2.now st event2,
                 (qget double_click_time ⟨t2, rest⟩).2)) := by
    simp only [button_press, hq1]
    rw [race_loop_exit _ _ _ _ (by simp [still_racing, hrel])]
    dsimp only
    rw [if_neg (not_le.mpr hx1), max_eq_right ht2]
  refine ⟨fun hrest => ?_, fun t3 e3 rest2 hrest => ⟨fun hlate => ?_, fun hin hbtn => ?_,
    fun hin hknob => ?_⟩⟩
  · subst hrest
    rw [hmain]
    simp only [qget]
  · subst hrest
    rw [hmain]
    simp only [qget]
    rw [if_neg (not_le.mpr hlate)]
  · subst hrest
    rw [hmain]
    simp only [qget]
    rw [if_pos hin]
    dsimp only
    rw [if_pos hbtn]
  · subst hrest
    rw [hmain]
    simp only [qget]
    rw [if_pos hin]
    dsimp only
    rw [if_neg hknob]

/-- C4, applied: press at 0, release at 100 ms, quirk record at 110 ms, a
second press at 300 ms inside the 1 s double-click window: exactly one
`DOUBLE_CLICK`. -/
theorem C4_short_press_witness :
    button_press 1 1 0 0 (⟨0, []⟩ : BPState)
        ⟨0, [(100, ⟨256, -1, 0, 0⟩), (110, ⟨0, 0, 0, 0⟩), (300, ⟨256, 1, 0, 0⟩)]⟩
      = some (⟨0, [ConsolidatedEventCode.DOUBLE_CLICK]⟩, ⟨max 110 300, []⟩) :=
  ((C4_short_press 1 1 0 0 ⟨0, []⟩ 100 110 ⟨256, -1, 0, 0⟩ ⟨0, 0, 0, 0⟩
      [(300, ⟨256, 1, 0, 0⟩)] rfl (by norm_num) (by norm_num) (by norm_num)).2
    300 ⟨256, 1, 0, 0⟩ [] rfl).2.1 (by norm_num) rfl

/-- C8, applied: before `start` (`event_capture_running = false`), `get_next`
with the default blocking policy fails with `CaptureNotStarted` and the
state - queues included - is exactly the one passed in. -/
theorem C8_get_next_contract_witness :
    get_next ⟨false, true, [], [ConsolidatedEventCode.LEFT_TURN]⟩ true none
      = some (Except.error "CaptureNotStarted",
              ⟨false, true, [], [ConsolidatedEventCode.LEFT_TURN]⟩) :=
  (C8_get_next_contract ⟨false, true, [], [ConsolidatedEventCode.LEFT_TURN]⟩ true none).1 rfl
